import Mathlib

/-!
Verification of the search/storage subsystem of the Anki Dictionary Addon
(`src/src/database/repository.py`, `src/src/database/connection.py`,
`src/dictdb.py`) against its natural-language specification.

Python strings are modelled as `List Char` (a Python `str` is a sequence of
Unicode code points).  SQLite rows are modelled as records; the specific
queries issued by the repository are given executable semantics
(filter / order-by / limit, with SQL `LIKE` pattern matching implemented
directly, `PRAGMA case_sensitive_like = ON` as configured in
`DatabaseConnection._configure_connection`).
-/

/-- Python `str` as a list of code points. -/
abbrev Str := List Char

/-- Fuel-indexed SQL `LIKE` matcher (pattern first, then subject).  `%`
matches any (possibly empty) sequence, `_` matches exactly one character,
anything else matches literally and case-sensitively.  The fuel only makes
the recursion structural; `p.length + s.length` steps always suffice. -/
def likeAux : Nat → Str → Str → Bool
  | _, [], s => s.isEmpty
  | 0, _ :: _, _ => false
  | fuel + 1, c :: p, s =>
    if c = '%' then
      likeAux fuel p s ||
        (match s with
         | [] => false
         | _ :: s2 => likeAux fuel (c :: p) s2)
    else
      match s with
      | [] => false
      | d :: s2 => if c = '_' then likeAux fuel p s2 else c = d && likeAux fuel p s2

/-- SQL `LIKE` with sufficient fuel. -/
def likeMatch (p s : Str) : Bool := likeAux (p.length + s.length) p s

/-- `likeAux` does not depend on the fuel once the fuel dominates the
combined length of pattern and subject. -/
theorem likeAux_fuel_irrel (f1 : Nat) :
    ∀ f2 p s, p.length + s.length ≤ f1 → p.length + s.length ≤ f2 →
      likeAux f1 p s = likeAux f2 p s := by
  induction f1 with
  | zero =>
    intro f2 p s h1 _
    cases p with
    | nil => cases f2 <;> rfl
    | cons c p => simp only [List.length_cons] at h1; omega
  | succ f ih =>
    intro f2 p s h1 h2
    cases p with
    | nil => cases f2 <;> rfl
    | cons c p =>
      cases f2 with
      | zero => simp only [List.length_cons] at h2; omega
      | succ f2 =>
        simp only [likeAux]
        by_cases hc : c = '%'
        · subst hc
          simp only [if_pos rfl]
          cases s with
          | nil =>
            have e1 := ih f2 p []
              (by simp only [List.length_cons, List.length_nil] at h1 ⊢; omega)
              (by simp only [List.length_cons, List.length_nil] at h2 ⊢; omega)
            simp [e1]
          | cons d s2 =>
            have e1 := ih f2 p (d :: s2)
              (by simp only [List.length_cons] at h1 ⊢; omega)
              (by simp only [List.length_cons] at h2 ⊢; omega)
            have e2 := ih f2 ('%' :: p) s2
              (by simp only [List.length_cons] at h1 ⊢; omega)
              (by simp only [List.length_cons] at h2 ⊢; omega)
            simp [e1, e2]
        · simp only [if_neg hc]
          cases s with
          | nil => rfl
          | cons d s2 =>
            have e3 := ih f2 p s2
              (by simp only [List.length_cons] at h1 ⊢; omega)
              (by simp only [List.length_cons] at h2 ⊢; omega)
            by_cases hu : c = '_'
            · simp [hu, e3]
            · simp [hu, e3]

/-- A `LIKE` pattern containing neither `%` nor `_` matches exactly itself. -/
theorem likeMatch_no_wildcards (p : Str) :
    ∀ s, '%' ∉ p → '_' ∉ p → (likeMatch p s = true ↔ s = p) := by
  unfold likeMatch
  induction p with
  | nil =>
    intro s _ _
    cases s with
    | nil => simp [likeAux]
    | cons c s => simp [likeAux]
  | cons c p ih =>
    intro s hp hu
    have hcp : c ≠ '%' := fun h => hp (h ▸ List.mem_cons_self c p)
    have hcu : c ≠ '_' := fun h => hu (h ▸ List.mem_cons_self c p)
    have hp' : '%' ∉ p := fun h => hp (List.mem_cons_of_mem _ h)
    have hu' : '_' ∉ p := fun h => hu (List.mem_cons_of_mem _ h)
    cases s with
    | nil =>
      simp only [List.length_cons, List.length_nil]
      constructor
      · intro h
        exfalso
        revert h
        simp [likeAux, hcp]
      · intro h
        exact absurd h (by simp)
    | cons d s2 =>
      have step : likeAux ((c :: p).length + (d :: s2).length) (c :: p) (d :: s2)
          = (decide (c = d) && likeAux (p.length + s2.length + 1) p s2) := by
        have hl : (c :: p).length + (d :: s2).length = (p.length + s2.length + 1) + 1 := by
          simp only [List.length_cons]; omega
        rw [hl]
        simp only [likeAux, if_neg hcp, if_neg hcu]
      rw [step, likeAux_fuel_irrel (p.length + s2.length + 1) (p.length + s2.length) p s2
        (by omega) (by omega)]
      constructor
      · intro h
        rw [Bool.and_eq_true] at h
        obtain ⟨h1, h2⟩ := h
        have hcd : c = d := of_decide_eq_true h1
        have hs : s2 = p := (ih s2 hp' hu').mp h2
        rw [hcd, hs]
      · intro h
        injection h with h1 h2
        rw [Bool.and_eq_true]
        exact ⟨decide_eq_true h1.symm, (ih s2 hp' hu').mpr h2⟩

/-! ## Name normalization (`DictionaryRepository._normalize_dict_name`) -/

/-- The sequential character-replacement table of `_normalize_dict_name`
(each key character is replaced, left to right over the table, by the given
replacement string of length 0 or 1). -/
def replacements : List (Char × Str) :=
  [('[', []), (']', []), ('(', []), (')', []), ('{', []), ('}', []),
   ('<', []), ('>', []), ('\'', []), ('"', []), ('`', []), ('´', []),
   ('/', ['_']), ('\\', ['_']), ('|', ['_']), (':', ['_']), ('*', []),
   ('?', []), ('!', []), ('@', []), ('#', []), ('$', []), ('%', []),
   ('^', []), ('&', []), ('=', []), ('+', []), (',', []), (';', []),
   ('~', []), ('．', ['.']), ('。', ['.']), ('　', ['_']), (' ', ['_'])]

/-- Python `str.replace` for a single-character pattern: every occurrence of
`c` becomes `rep`. -/
def replChar (c : Char) (rep : Str) (s : Str) : Str :=
  s.flatMap (fun d => if d = c then rep else [d])

/-- One pass over the whole replacement table, in table order. -/
def applyReplacements (s : Str) : Str :=
  replacements.foldl (fun acc p => replChar p.1 p.2 acc) s

/-- The control-character class removed by `_normalize_dict_name`
(`[\x00-\x1F\x7F-\x9F]`). -/
def isCtrl (c : Char) : Bool :=
  c.toNat ≤ 0x1F || (0x7F ≤ c.toNat && c.toNat ≤ 0x9F)

/-- The fallback name for empty or all-stripped input. -/
def fallbackName : Str := "unnamed_dictionary".data

/-- The replace / strip-control / truncate pipeline of
`_normalize_dict_name` (everything between the two emptiness checks). -/
def normalizePipeline (name : Str) : Str :=
  let r1 := applyReplacements name
  let r2 := r1.filter (fun c => !isCtrl c)
  if r2.length > 100 then r2.take 100 else r2

/-- `DictionaryRepository._normalize_dict_name`. -/
def normalize_dict_name (name : Str) : Str :=
  if name = [] then fallbackName
  else
    let r := normalizePipeline name
    if r = [] then fallbackName else r

/-! ## Table-name formatting and cleaning -/

/-- Decimal digit characters via `Char.ofNat (48 + k)`. -/
def digitChar (k : Nat) : Char := Char.ofNat (48 + k)

/-- Decimal representation of a natural number, structurally (by fuel); the
fuel `n` always suffices since `n / 10 < n` for `n > 0`. -/
def natDecAux : Nat → Nat → Str
  | 0, _ => []
  | fuel + 1, n =>
    if n = 0 then []
    else natDecAux fuel (n / 10) ++ [digitChar (n % 10)]

/-- Python `str(n)` for a non-negative integer (as used by the f-string in
`_format_dict_name`). -/
def natDecimal (n : Nat) : Str :=
  if n = 0 then ['0'] else natDecAux n n

/-- `DictionaryRepository._format_dict_name`: `f'l{lang_id}name{name}'`. -/
def format_dict_name (lang_id : Nat) (name : Str) : Str :=
  'l' :: natDecimal lang_id ++ 'n' :: 'a' :: 'm' :: 'e' :: name

/-- Decimal digit test (`\d` restricted to ASCII, as matched by the
repository's patterns on names produced by `_format_dict_name`). -/
def isDigitChar (c : Char) : Bool := '0' ≤ c && c ≤ '9'

/-- Regex-match step for `l\d+name` anchored at the head of `s`: if `s`
starts with `l`, one or more digits, then `name`, return the remainder after
that match, else `none`.  Because `\d+` is greedy and `name` starts with a
non-digit, the only possible match takes the maximal digit run. -/
def lnameSplit (s : Str) : Option Str :=
  match s with
  | 'l' :: rest =>
    if rest.takeWhile isDigitChar = [] then none
    else
      if ('n' :: 'a' :: 'm' :: 'e' :: []).isPrefixOf (rest.dropWhile isDigitChar) then
        some ((rest.dropWhile isDigitChar).drop 4)
      else none
  | _ => none

theorem lnameSplit_length {s rem : Str} (h : lnameSplit s = some rem) :
    rem.length < s.length := by
  match s with
  | [] => simp [lnameSplit] at h
  | c :: rest =>
    by_cases hc : c = 'l'
    · subst hc
      simp only [lnameSplit] at h
      by_cases h1 : rest.takeWhile isDigitChar = []
      · simp [h1] at h
      · simp only [h1, if_neg] at h
        by_cases h2 : (['n', 'a', 'm', 'e'] : Str).isPrefixOf (rest.dropWhile isDigitChar)
        · simp only [h2, if_pos] at h
          cases h
          have hd : (rest.dropWhile isDigitChar).length ≤ rest.length :=
            (List.dropWhile_suffix _).length_le
          have := List.length_drop 4 (rest.dropWhile isDigitChar)
          simp only [List.length_cons]
          omega
        · simp [h2] at h
    · have hnone : lnameSplit (c :: rest) = none := by
        unfold lnameSplit
        split
        · rename_i rest1 heq
          injection heq with h1 _
          exact absurd h1 hc
        · rfl
      rw [hnone] at h
      cases h

/-- Fuel-indexed model of `re.sub(r'l\d+name', '', s)`
(`DictionaryRepository._clean_dict_name`): scan left to right; at each
position remove a leftmost `l\d+name` match and continue after it, otherwise
keep the character.  One unit of fuel per consumed character suffices. -/
def cleanAux : Nat → Str → Str
  | _, [] => []
  | 0, s => s
  | f + 1, c :: rest =>
    match lnameSplit (c :: rest) with
    | some rem => cleanAux f rem
    | none => c :: cleanAux f rest

/-- `DictionaryRepository._clean_dict_name`. -/
def clean_dict_name (s : Str) : Str := cleanAux s.length s

theorem cleanAux_fuel_irrel (f1 : Nat) :
    ∀ f2 s, s.length ≤ f1 → s.length ≤ f2 → cleanAux f1 s = cleanAux f2 s := by
  induction f1 with
  | zero =>
    intro f2 s h1 _
    cases s with
    | nil => cases f2 <;> rfl
    | cons c rest => simp only [List.length_cons] at h1; omega
  | succ f ih =>
    intro f2 s h1 h2
    cases s with
    | nil => cases f2 <;> rfl
    | cons c rest =>
      cases f2 with
      | zero => simp only [List.length_cons] at h2; omega
      | succ f2 =>
        simp only [cleanAux]
        cases hsp : lnameSplit (c :: rest) with
        | some rem =>
          have hlen := lnameSplit_length hsp
          simp only [List.length_cons] at hlen h1 h2
          exact ih f2 rem (by omega) (by omega)
        | none =>
          have := ih f2 rest
            (by simp only [List.length_cons] at h1; omega)
            (by simp only [List.length_cons] at h2; omega)
          rw [this]

theorem clean_dict_name_of_split {s rem : Str} (h : lnameSplit s = some rem) :
    clean_dict_name s = clean_dict_name rem := by
  cases s with
  | nil => simp [lnameSplit] at h
  | cons c rest =>
    have hlen := lnameSplit_length h
    simp only [List.length_cons] at hlen
    unfold clean_dict_name
    simp only [List.length_cons, cleanAux, h]
    exact cleanAux_fuel_irrel rest.length rem.length rem (by omega) (by omega)

theorem clean_dict_name_cons_none {c : Char} {rest : Str}
    (h : lnameSplit (c :: rest) = none) :
    clean_dict_name (c :: rest) = c :: clean_dict_name rest := by
  unfold clean_dict_name
  simp only [List.length_cons, cleanAux, h]

/-- `s` contains a substring matching `l\d+name` (at any position). -/
def hasLName : Str → Bool
  | [] => false
  | c :: rest => (lnameSplit (c :: rest)).isSome || hasLName rest

theorem clean_dict_name_id {s : Str} (h : hasLName s = false) :
    clean_dict_name s = s := by
  induction s with
  | nil => rfl
  | cons c rest ih =>
    simp only [hasLName, Bool.or_eq_false_iff] at h
    obtain ⟨h1, h2⟩ := h
    have h1' : lnameSplit (c :: rest) = none := by
      cases hsp : lnameSplit (c :: rest) with
      | none => rfl
      | some rem => rw [hsp] at h1; simp at h1
    rw [clean_dict_name_cons_none h1', ih h2]

theorem digitChar_isDigit {k : Nat} (hk : k < 10) :
    isDigitChar (digitChar k) = true := by
  interval_cases k <;> decide

theorem natDecAux_digits (f : Nat) :
    ∀ n, ∀ c ∈ natDecAux f n, isDigitChar c = true := by
  induction f with
  | zero => intro n c hc; simp [natDecAux] at hc
  | succ f ih =>
    intro n c hc
    simp only [natDecAux] at hc
    by_cases hn : n = 0
    · simp [hn] at hc
    · rw [if_neg hn] at hc
      rcases List.mem_append.mp hc with h | h
      · exact ih _ c h
      · have : c = digitChar (n % 10) := by simpa using h
        rw [this]
        exact digitChar_isDigit (Nat.mod_lt _ (by omega))

theorem natDecimal_digits (n : Nat) : ∀ c ∈ natDecimal n, isDigitChar c = true := by
  intro c hc
  unfold natDecimal at hc
  by_cases hn : n = 0
  · rw [if_pos hn] at hc
    have : c = '0' := by simpa using hc
    rw [this]; decide
  · rw [if_neg hn] at hc
    exact natDecAux_digits n n c hc

theorem natDecimal_ne_nil (n : Nat) : natDecimal n ≠ [] := by
  unfold natDecimal
  by_cases hn : n = 0
  · simp [hn]
  · rw [if_neg hn]
    cases n with
    | zero => exact absurd rfl hn
    | succ m =>
      simp only [natDecAux, if_neg hn]
      simp

theorem takeWhile_append_neg {p : Char → Bool} (a : Str) {x : Char} (t : Str)
    (ha : ∀ c ∈ a, p c = true) (hx : p x = false) :
    (a ++ x :: t).takeWhile p = a ∧ (a ++ x :: t).dropWhile p = x :: t := by
  induction a with
  | nil => simp [List.takeWhile_cons, List.dropWhile_cons, hx]
  | cons b a ih =>
    have hb : p b = true := ha b (List.mem_cons_self _ _)
    have ha' : ∀ c ∈ a, p c = true := fun c hc => ha c (List.mem_cons_of_mem _ hc)
    obtain ⟨h1, h2⟩ := ih ha'
    simp [List.takeWhile_cons, List.dropWhile_cons, hb, h1, h2]

theorem lnameSplit_format (lid : Nat) (name : Str) :
    lnameSplit (format_dict_name lid name) = some name := by
  obtain ⟨h1, h2⟩ := takeWhile_append_neg (natDecimal lid)
    ('a' :: 'm' :: 'e' :: name) (natDecimal_digits lid) (p := isDigitChar)
    (x := 'n') (by decide)
  unfold format_dict_name
  simp only [lnameSplit, List.cons_append] at h1 h2 ⊢
  rw [h1, h2, if_neg (natDecimal_ne_nil lid)]
  have hpre : (('n' :: 'a' :: 'm' :: 'e' :: []).isPrefixOf
      ('n' :: 'a' :: 'm' :: 'e' :: name)) = true := by
    simp [List.isPrefixOf]
  rw [if_pos hpre]
  rfl

/-- The round-trip for names free of the internal pattern anywhere:
cleaning inverts formatting. -/
theorem clean_format_of_no_lname (lid : Nat) (name : Str)
    (h : hasLName name = false) :
    clean_dict_name (format_dict_name lid name) = name := by
  rw [clean_dict_name_of_split (lnameSplit_format lid name), clean_dict_name_id h]

/-! ## Properties of the normalization pipeline -/

theorem replChar_of_not_mem {c : Char} {s : Str} (rep : Str) (h : c ∉ s) :
    replChar c rep s = s := by
  induction s with
  | nil => rfl
  | cons d t ih =>
    have hdc : d ≠ c := fun hh => h (hh ▸ List.mem_cons_self d t)
    have ht : c ∉ t := fun hh => h (List.mem_cons_of_mem _ hh)
    simp only [replChar, List.flatMap_cons, if_neg hdc]
    rw [show t.flatMap (fun d => if d = c then rep else [d]) = replChar c rep t from rfl,
      ih ht]
    rfl

theorem mem_replChar {x c : Char} {rep s : Str} (h : x ∈ replChar c rep s) :
    x ∈ rep ∨ (x ∈ s ∧ x ≠ c) := by
  simp only [replChar, List.mem_flatMap] at h
  obtain ⟨d, hd, hx⟩ := h
  by_cases hdc : d = c
  · rw [if_pos hdc] at hx
    exact Or.inl hx
  · rw [if_neg hdc] at hx
    have : x = d := by simpa using hx
    exact Or.inr ⟨this ▸ hd, this ▸ hdc⟩

/-- Folding the replacement pass over a table never introduces a character
that is absent from the input and from every replacement string. -/
theorem foldl_replChar_not_mem {x : Char} :
    ∀ (ps : List (Char × Str)) (s : Str), (∀ p ∈ ps, x ∉ p.2) → x ∉ s →
      x ∉ ps.foldl (fun acc p => replChar p.1 p.2 acc) s := by
  intro ps
  induction ps with
  | nil => intro s _ hs; exact hs
  | cons q ps ih =>
    intro s hreps hs
    simp only [List.foldl_cons]
    apply ih
    · intro p hp; exact hreps p (List.mem_cons_of_mem _ hp)
    · intro hmem
      rcases mem_replChar hmem with h | h
      · exact hreps q (List.mem_cons_self _ _) h
      · exact hs h.1

/-- After the fold, every key whose replacement strings never reintroduce it
is gone from the result. -/
theorem foldl_replChar_removes_key {k : Char} :
    ∀ (ps : List (Char × Str)) (s : Str), (∃ r, (k, r) ∈ ps) →
      (∀ p ∈ ps, k ∉ p.2) →
      k ∉ ps.foldl (fun acc p => replChar p.1 p.2 acc) s := by
  intro ps
  induction ps with
  | nil => intro s hk _; obtain ⟨r, hr⟩ := hk; simp at hr
  | cons q ps ih =>
    intro s hk hreps
    obtain ⟨r, hr⟩ := hk
    simp only [List.foldl_cons]
    rcases List.mem_cons.mp hr with h | h
    · have hq : q = (k, r) := h.symm
      subst hq
      apply foldl_replChar_not_mem ps
      · intro p hp; exact hreps p (List.mem_cons_of_mem _ hp)
      · exact fun hmem => by
          rcases mem_replChar hmem with hh | hh
          · exact hreps (k, r) (List.mem_cons_self _ _) hh
          · exact hh.2 rfl
    · exact ih _ ⟨r, h⟩ (fun p hp => hreps p (List.mem_cons_of_mem _ hp))

theorem foldl_replChar_id :
    ∀ (ps : List (Char × Str)) (s : Str), (∀ p ∈ ps, p.1 ∉ s) →
      ps.foldl (fun acc p => replChar p.1 p.2 acc) s = s := by
  intro ps
  induction ps with
  | nil => intro s _; rfl
  | cons q ps ih =>
    intro s h
    simp only [List.foldl_cons]
    rw [replChar_of_not_mem _ (h q (List.mem_cons_self _ _))]
    exact ih s (fun p hp => h p (List.mem_cons_of_mem _ hp))

/-- No key of the replacement table occurs in any replacement string. -/
theorem keys_not_in_reps :
    ∀ p ∈ replacements, ∀ q ∈ replacements, p.1 ∉ q.2 := by decide

theorem applyReplacements_no_keys (s : Str) :
    ∀ p ∈ replacements, p.1 ∉ applyReplacements s := by
  intro p hp
  exact foldl_replChar_removes_key replacements s ⟨p.2, hp⟩
    (fun q hq => keys_not_in_reps p hp q hq)

theorem applyReplacements_id {s : Str} (h : ∀ p ∈ replacements, p.1 ∉ s) :
    applyReplacements s = s :=
  foldl_replChar_id replacements s h

theorem mem_normalizePipeline {x : Char} {s : Str} (h : x ∈ normalizePipeline s) :
    x ∈ applyReplacements s ∧ isCtrl x = false := by
  unfold normalizePipeline at h
  by_cases hlen : ((applyReplacements s).filter (fun c => !isCtrl c)).length > 100
  · rw [if_pos hlen] at h
    have h2 := List.take_subset 100 _ h
    have h3 := List.mem_filter.mp h2
    exact ⟨h3.1, by simpa using h3.2⟩
  · rw [if_neg hlen] at h
    have h3 := List.mem_filter.mp h
    exact ⟨h3.1, by simpa using h3.2⟩

theorem normalizePipeline_length (s : Str) : (normalizePipeline s).length ≤ 100 := by
  unfold normalizePipeline
  by_cases hlen : ((applyReplacements s).filter (fun c => !isCtrl c)).length > 100
  · rw [if_pos hlen]
    simp
  · rw [if_neg hlen]
    omega

theorem normalizePipeline_fixed {r : Str}
    (hkeys : ∀ p ∈ replacements, p.1 ∉ r)
    (hctrl : ∀ c ∈ r, isCtrl c = false)
    (hlen : r.length ≤ 100) :
    normalizePipeline r = r := by
  simp only [normalizePipeline]
  rw [applyReplacements_id hkeys]
  have hfil : r.filter (fun c => !isCtrl c) = r := by
    apply List.filter_eq_self.mpr
    intro c hc
    simp [hctrl c hc]
  rw [hfil, if_neg (by omega)]

theorem normalizePipeline_idem (s : Str) :
    normalizePipeline (normalizePipeline s) = normalizePipeline s := by
  apply normalizePipeline_fixed
  · intro p hp hmem
    exact applyReplacements_no_keys s p hp (mem_normalizePipeline hmem).1
  · intro c hc
    exact (mem_normalizePipeline hc).2
  · exact normalizePipeline_length s

theorem normalize_dict_name_fallback_fixed :
    normalize_dict_name fallbackName = fallbackName := by rfl

/-- C9: name normalization is total and idempotent: for every input string,
`_normalize_dict_name` succeeds (it is a total function), applying it twice
equals applying it once, the result has length at most 100 code points, and
empty or all-stripped input yields the fixed fallback
`"unnamed_dictionary"`. -/
theorem normalize_dict_name_spec (x : Str) :
    (normalize_dict_name x).length ≤ 100 ∧
    normalize_dict_name (normalize_dict_name x) = normalize_dict_name x ∧
    ((x = [] ∨ normalizePipeline x = []) → normalize_dict_name x = fallbackName) := by
  refine ⟨?_, ?_, ?_⟩
  · unfold normalize_dict_name
    by_cases hx : x = []
    · rw [if_pos hx]; decide
    · rw [if_neg hx]
      by_cases hr : normalizePipeline x = []
      · simp only [hr, if_pos]; decide
      · simp only [if_neg hr]
        exact normalizePipeline_length x
  · by_cases hx : x = []
    · rw [show normalize_dict_name x = fallbackName from by rw [hx]; rfl]
      exact normalize_dict_name_fallback_fixed
    · by_cases hr : normalizePipeline x = []
      · rw [show normalize_dict_name x = fallbackName from by
          unfold normalize_dict_name; rw [if_neg hx]; simp only [hr, if_pos]]
        exact normalize_dict_name_fallback_fixed
      · have hval : normalize_dict_name x = normalizePipeline x := by
          unfold normalize_dict_name; rw [if_neg hx]; simp only [if_neg hr]
        rw [hval]
        have hr2 : normalizePipeline (normalizePipeline x) = normalizePipeline x :=
          normalizePipeline_idem x
        unfold normalize_dict_name
        rw [if_neg hr]
        simp only [hr2, if_neg hr]
  · intro h
    rcases h with h | h
    · rw [h]; rfl
    · unfold normalize_dict_name
      by_cases hx : x = []
      · rw [if_pos hx]
      · rw [if_neg hx]
        simp only [h, if_pos]

/-- Witness for C9 at a concrete all-stripped input: `"()"` normalizes to
the fallback name. -/
theorem normalize_dict_name_spec_witness :
    normalize_dict_name ['(', ')'] = fallbackName :=
  (normalize_dict_name_spec ['(', ')']).2.2 (Or.inr (by rfl))

/-- C4 counterexample: the name `"al1nameb"` does not match the internal
`l<digits>name` prefix pattern (no match anchored at its head), is already
normalized, yet cleaning does not invert formatting for it: `_clean_dict_name`
removes **every** occurrence of `l\d+name`, so
`clean(format(2, "al1nameb")) = "ab" ≠ "al1nameb"`. -/
theorem clean_format_roundtrip_cex :
    lnameSplit ('a' :: 'l' :: '1' :: 'n' :: 'a' :: 'm' :: 'e' :: 'b' :: []) = none ∧
    normalize_dict_name ('a' :: 'l' :: '1' :: 'n' :: 'a' :: 'm' :: 'e' :: 'b' :: []) =
      'a' :: 'l' :: '1' :: 'n' :: 'a' :: 'm' :: 'e' :: 'b' :: [] ∧
    clean_dict_name (format_dict_name 2
        (normalize_dict_name ('a' :: 'l' :: '1' :: 'n' :: 'a' :: 'm' :: 'e' :: 'b' :: []))) =
      'a' :: 'b' :: [] := by
  refine ⟨by decide, by decide, by decide⟩

/-- C4 amended: for every language id and every name whose normalization
contains no substring matching `l<digits>name` (not merely no such prefix),
cleaning inverts formatting:
`clean_table_name(format_table_name(id, normalize(name))) = normalize(name)`. -/
theorem clean_format_roundtrip (lid : Nat) (name : Str)
    (h : hasLName (normalize_dict_name name) = false) :
    clean_dict_name (format_dict_name lid (normalize_dict_name name)) =
      normalize_dict_name name :=
  clean_format_of_no_lname lid _ h

/-- Witness for C4 at `id = 3`, `name = "My Dict"` (normalizing to
`"My_Dict"`). -/
theorem clean_format_roundtrip_witness :
    clean_dict_name (format_dict_name 3
        (normalize_dict_name ('M' :: 'y' :: ' ' :: 'D' :: 'i' :: 'c' :: 't' :: []))) =
      normalize_dict_name ('M' :: 'y' :: ' ' :: 'D' :: 'i' :: 'c' :: 't' :: []) :=
  clean_format_roundtrip 3 _ (by decide)

/-! ## Data model: entries, rows, database state -/

/-- A row of a per-dictionary physical table (the 9 columns created by
`_create_dictionary_table`).  `NULL`-able text columns are modelled as
(possibly empty) strings; `frequency MEDIUMINT` as an integer. -/
structure Row where
  term : Str
  altterm : Str
  pronunciation : Str
  pos : Str
  definition : Str
  examples : Str
  audio : Str
  frequency : Int
  starCount : Str
deriving DecidableEq

/-- `src/src/database/models.py` `DictionaryEntry`. -/
structure DictionaryEntry where
  term : Str
  altterm : Str
  pronunciation : Str
  pos : Str
  definition : Str
  examples : Str
  audio : Str
  frequency : Int
  star_count : Str
deriving DecidableEq

/-- A `dictnames` registry row (schema in `init_db.py`). -/
structure DictRow where
  dictname : Str
  lid : Nat
  fields : Str
  addtype : Str
  termHeader : Str
  duplicateHeader : Nat
deriving DecidableEq

/-- The SQLite database state visible to the repository: the `langnames`
table (id, name), the `dictnames` registry, and the per-dictionary physical
tables keyed by table name.  The two registry tables themselves are kept
apart from `tables`: no table name produced by `_format_dict_name` can match
them as a `LIKE` pattern (such names start with `l` followed by a literal
digit). -/
structure DB where
  langnames : List (Nat × Str)
  dictnames : List DictRow
  tables : List (Str × List Row)
deriving DecidableEq

/-- Value of a named column of a row, for the columns the repository
interpolates into its queries (`term`, `altterm`, `pronunciation`,
`definition`). -/
def colValue (r : Row) (col : Str) : Str :=
  if col = "definition".data then r.definition
  else if col = "pronunciation".data then r.pronunciation
  else if col = "altterm".data then r.altterm
  else r.term

/-- The `ORDER BY LENGTH(term) ASC, frequency ASC` comparison. -/
def rowLE (a b : Row) : Bool :=
  a.term.length < b.term.length ||
    (a.term.length = b.term.length && a.frequency ≤ b.frequency)

def insertSorted (r : Row) : List Row → List Row
  | [] => [r]
  | x :: xs => if rowLE r x then r :: x :: xs else x :: insertSorted r xs

/-- Insertion sort realizing the `ORDER BY` clause (SQLite's sort order on
ties is unspecified; no claim depends on tie order). -/
def sortRows : List Row → List Row
  | [] => []
  | r :: rs => insertSorted r (sortRows rs)

theorem length_insertSorted (r : Row) (l : List Row) :
    (insertSorted r l).length = l.length + 1 := by
  induction l with
  | nil => rfl
  | cons x xs ih =>
    simp only [insertSorted]
    by_cases h : rowLE r x
    · simp [h]
    · simp [h, ih]

theorem length_sortRows (l : List Row) : (sortRows l).length = l.length := by
  induction l with
  | nil => rfl
  | cons r rs ih => simp [sortRows, length_insertSorted, ih]

theorem mem_insertSorted {x r : Row} {l : List Row}
    (h : x ∈ insertSorted r l) : x = r ∨ x ∈ l := by
  induction l with
  | nil =>
    have hx : x = r := by simpa [insertSorted] using h
    exact Or.inl hx
  | cons y ys ih =>
    simp only [insertSorted] at h
    by_cases hc : rowLE r y
    · rw [if_pos hc] at h
      rcases List.mem_cons.mp h with h | h
      · exact Or.inl h
      · exact Or.inr h
    · rw [if_neg hc] at h
      rcases List.mem_cons.mp h with h | h
      · exact Or.inr (h ▸ List.mem_cons_self _ _)
      · rcases ih h with h | h
        · exact Or.inl h
        · exact Or.inr (List.mem_cons_of_mem _ h)

theorem mem_sortRows {x : Row} {l : List Row} (h : x ∈ sortRows l) : x ∈ l := by
  induction l with
  | nil => simp [sortRows] at h
  | cons r rs ih =>
    simp only [sortRows] at h
    rcases mem_insertSorted h with h | h
    · exact h ▸ List.mem_cons_self _ _
    · exact List.mem_cons_of_mem _ (ih h)

/-- One `column operator ?` disjunct of the WHERE clause, evaluated on a
row: `=` compares for equality, anything else is the `LIKE` operator with
the bound term as pattern. -/
def matchOp (op : Str) (v t : Str) : Bool :=
  if op = "=".data then v = t else likeMatch t v

/-- Semantics of the query text built by
`DictionaryRepository._build_search_query` (also the query of
`DictDB.executeSearch`, which has the same shape): rows satisfying the
OR-disjunction of `column operator ?` over the bound terms, ordered by
`(LENGTH(term) ASC, frequency ASC)`, capped at `LIMIT limit`. -/
def runQuery (tbl : List Row) (col : Str) (terms : List Str) (op : Str)
    (limit : Nat) : List Row :=
  (sortRows (tbl.filter
    (fun r => terms.any (fun t => matchOp op (colValue r col) t)))).take limit

theorem length_runQuery (tbl : List Row) (col : Str) (terms : List Str)
    (op : Str) (limit : Nat) : (runQuery tbl col terms op limit).length ≤ limit := by
  unfold runQuery
  simp

/-- `DictionaryRepository._row_to_entry`: the SELECT list omits `frequency`,
and the entry's frequency field is hard-coded to 0. -/
def row_to_entry (r : Row) : DictionaryEntry :=
  { term := r.term, altterm := r.altterm, pronunciation := r.pronunciation,
    pos := r.pos, definition := r.definition, examples := r.examples,
    audio := r.audio, frequency := 0, star_count := r.starCount }

/-- Resolve a table name in the database; `none` models a stale registry
entry (query raises `sqlite3.OperationalError: no such table`). -/
def lookupTable (db : DB) (name : Str) : Option (List Row) :=
  (db.tables.find? (fun p => p.1 = name)).map (fun p => p.2)

/-- `DictionaryRepository._get_search_column`. -/
def get_search_column (mode : Str) : Str :=
  if mode = "Definition".data ∨ mode = "Example".data then "definition".data
  else if mode = "Pronunciation".data then "pronunciation".data
  else "term".data

/-- The operator selection of `_search_dictionary`:
`'=' if search_mode == 'Exact' else 'LIKE'`. -/
def search_operator (mode : Str) : Str :=
  if mode = "Exact".data then "=".data else "LIKE".data

/-- `DictionaryRepository._apply_search_mode`. -/
def apply_search_mode (terms : List Str) (mode : Str) : List Str :=
  if mode = "Forward".data ∨ mode = "Pronunciation".data then
    terms.map (fun t => t ++ ['%'])
  else if mode = "Backward".data then
    terms.map (fun t => '%' :: '_' :: t)
  else if mode = "Anywhere".data ∨ mode = "Definition".data ∨ mode = "Example".data then
    terms.map (fun t => '%' :: t ++ ['%'])
  else terms

/-- `DictionaryRepository._search_dictionary`: build and run the query; any
storage error (here: the table does not exist) is caught and treated as an
empty result. -/
def search_dictionary (db : DB) (dict_name : Str) (terms : List Str)
    (search_mode : Str) (limit : Nat) : List DictionaryEntry :=
  match lookupTable db dict_name with
  | none => []
  | some tbl =>
    (runQuery tbl (get_search_column search_mode) terms
      (search_operator search_mode) limit).map row_to_entry

/-- C8: wildcard application maps each term `t` to `t%` in `Forward` and
`Pronunciation` modes, to `%_t` in `Backward` mode, to `%t%` in `Anywhere`,
`Definition` and `Example` modes, and leaves `t` unchanged in `Exact` mode;
and the comparison operator is `=` exactly when the mode is `Exact`,
otherwise `LIKE`. -/
theorem apply_wildcards_spec (terms : List Str) :
    apply_search_mode terms "Forward".data = terms.map (fun t => t ++ ['%']) ∧
    apply_search_mode terms "Pronunciation".data = terms.map (fun t => t ++ ['%']) ∧
    apply_search_mode terms "Backward".data = terms.map (fun t => '%' :: '_' :: t) ∧
    apply_search_mode terms "Anywhere".data = terms.map (fun t => '%' :: t ++ ['%']) ∧
    apply_search_mode terms "Definition".data = terms.map (fun t => '%' :: t ++ ['%']) ∧
    apply_search_mode terms "Example".data = terms.map (fun t => '%' :: t ++ ['%']) ∧
    apply_search_mode terms "Exact".data = terms ∧
    (∀ mode : Str, search_operator mode = "=".data ↔ mode = "Exact".data) := by
  refine ⟨?_, ?_, ?_, ?_, ?_, ?_, ?_, ?_⟩
  · unfold apply_search_mode
    rw [if_pos (Or.inl rfl)]
  · unfold apply_search_mode
    rw [if_pos (Or.inr rfl)]
  · unfold apply_search_mode
    rw [if_neg (by decide), if_pos rfl]
  · unfold apply_search_mode
    rw [if_neg (by decide), if_neg (by decide), if_pos (Or.inl rfl)]
  · unfold apply_search_mode
    rw [if_neg (by decide), if_neg (by decide), if_pos (Or.inr (Or.inl rfl))]
  · unfold apply_search_mode
    rw [if_neg (by decide), if_neg (by decide), if_pos (Or.inr (Or.inr rfl))]
  · unfold apply_search_mode
    rw [if_neg (by decide), if_neg (by decide), if_neg (by decide)]
  · intro mode
    unfold search_operator
    constructor
    · intro h
      by_cases hm : mode = "Exact".data
      · exact hm
      · rw [if_neg hm] at h
        exact absurd h (by decide)
    · intro h
      rw [if_pos h]

/-! ## Deinflection (`DictionaryRepository._deconjugate` / `_rreplace`) -/

/-- A conjugation rule (`{inflected, dict: [...], prefix?}` from a
per-language JSON rule file); `pfx` is the optional `prefix` key. -/
structure ConjRule where
  inflected : Str
  dict : List Str
  pfx : Option Str
deriving DecidableEq

/-- Index of the rightmost occurrence of `old` in `s` at position ≤ `i`,
scanning downward. -/
def rfindFrom (s old : Str) : Nat → Option Nat
  | 0 => if old.isPrefixOf s then some 0 else none
  | i + 1 =>
    if old.isPrefixOf (s.drop (i + 1)) then some (i + 1) else rfindFrom s old i

/-- `DictionaryRepository._rreplace(s, old, new, 1)`: Python
`new.join(s.rsplit(old, 1))` replaces the rightmost occurrence of `old` (or
returns `s` unchanged if absent).  `str.rsplit` raises `ValueError: empty
separator` for `old = ""`, modelled as `none`. -/
def rreplace (s old new : Str) : Option Str :=
  if old = [] then none
  else some (match rfindFrom s old s.length with
    | none => s
    | some i => s.take i ++ new ++ s.drop (i + old.length))

/-- Python `if x not in xs: xs.append(x)`. -/
def appendIfNew (l : List Str) (x : Str) : List Str :=
  if x ∈ l then l else l ++ [x]

/-- Inner loop of `_deconjugate` over a rule's dictionary forms, extending
the accumulated `deconjugations` list (`none` propagates the `ValueError`
from an empty inflected suffix). -/
def deconjDicts (term infl : Str) (pfxOpt : Option Str) :
    List Str → List Str → Option (List Str)
  | [], acc => some acc
  | df :: rest, acc =>
    match rreplace term infl df with
    | none => none
    | some deinflected =>
      deconjDicts term infl pfxOpt rest
        (appendIfNew
          (match pfxOpt with
           | some p =>
             if p.isPrefixOf deinflected then
               appendIfNew acc (deinflected.drop p.length)
             else acc
           | none => acc)
          deinflected)

/-- Middle loop of `_deconjugate` over the rules for one term (a rule fires
when its inflected suffix is a suffix of the term, `str.endswith`). -/
def deconjRules (term : Str) : List ConjRule → List Str → Option (List Str)
  | [], acc => some acc
  | r :: rest, acc =>
    if r.inflected.isSuffixOf term then
      match deconjDicts term r.inflected r.pfx r.dict acc with
      | none => none
      | some acc2 => deconjRules term rest acc2
    else deconjRules term rest acc

/-- Outer loop of `_deconjugate` over the terms. -/
def deconjTerms (rules : List ConjRule) : List Str → List Str → Option (List Str)
  | [], acc => some acc
  | t :: ts, acc =>
    match deconjRules t rules acc with
    | none => none
    | some acc2 => deconjTerms rules ts acc2

/-- `DictionaryRepository._deconjugate`: candidates of length ≤ 1 are
discarded, then `list(set(terms + deconjugations))` is returned.  The Python
set iteration order is unspecified; it is modelled as an order-preserving
deduplication, and all theorems about the result are stated via
membership. -/
def deconjugate (terms : List Str) (rules : List ConjRule) : Option (List Str) :=
  match deconjTerms rules terms [] with
  | none => none
  | some ds => some ((terms ++ ds.filter (fun d => 1 < d.length)).dedup)

/-! ## Multi-dictionary search (`DictionaryRepository.search_term`) -/

/-- `src/src/constants.py`. -/
def DICT_GOOGLE_IMAGES : Str := "Google Images".data

/-- `src/src/constants.py`. -/
def DICT_FORVO : Str := "Forvo".data

/-- One element of the `dictionaries` argument of `search_term`
(`{'dict': ..., 'lang': ...}`). -/
structure DictGroupEntry where
  dict : Str
  lang : Str
deriving DecidableEq

/-- `src/src/database/models.py` `SearchResult`; the Python dict of results
is an insertion-ordered association list. -/
structure SearchResult where
  results : List (Str × List DictionaryEntry)
  total_count : Nat
deriving DecidableEq

/-- Python dict assignment `m[k] = v` on an insertion-ordered dict: update
in place if the key exists, else append. -/
def setAssoc (m : List (Str × List DictionaryEntry)) (k : Str)
    (v : List DictionaryEntry) : List (Str × List DictionaryEntry) :=
  if m.any (fun p => p.1 = k) then
    m.map (fun p => if p.1 = k then (k, v) else p)
  else m ++ [(k, v)]

/-- Python `str.lower()` (ASCII case mapping; the claims under verification
only exercise ASCII, where Python's full Unicode mapping agrees). -/
def pyLower (s : Str) : Str := s.map Char.toLower

/-- Python `str.capitalize()` (ASCII case mapping, as for `pyLower`). -/
def pyCapitalize (s : Str) : Str :=
  match s with
  | [] => []
  | c :: rest => Char.toUpper c :: rest.map Char.toLower

/-- `DictionaryRepository._prepare_search_terms`:
`list(set([term, term.lower(), term.capitalize()]))`; the Python set order
is unspecified and is modelled as order-preserving deduplication. -/
def prepare_search_terms (term : Str) : List Str :=
  ([term, pyLower term, pyCapitalize term]).dedup

/-- The per-dictionary term-set selection in `search_term`
(`if deinflect and lang in conjugations: ... _deconjugate ...`).  The
per-language `conjugated_terms` cache of the source is dropped:
`_deconjugate` is pure, so memoization is observationally the identity. -/
def search_terms_for (terms : List Str) (deinflect : Bool)
    (conjugations : List (Str × List ConjRule)) (lang : Str) : Option (List Str) :=
  if deinflect then
    match conjugations.find? (fun p => p.1 = lang) with
    | some p => deconjugate terms p.2
    | none => some terms
  else some terms

/-- The dictionary loop of `search_term`, carrying the results dict and the
running total; `none` models the uncaught `ValueError` that
`_deconjugate` raises on a rule with an empty inflected suffix. -/
def searchLoop (db : DB) (search_mode : Str) (deinflect : Bool)
    (conjugations : List (Str × List ConjRule)) (dict_limit max_defs : Nat)
    (terms : List Str) :
    List DictGroupEntry → List (Str × List DictionaryEntry) → Nat →
      Option (List (Str × List DictionaryEntry) × Nat)
  | [], acc, total => some (acc, total)
  | d :: rest, acc, total =>
    if d.dict = DICT_GOOGLE_IMAGES then
      searchLoop db search_mode deinflect conjugations dict_limit max_defs terms
        rest (setAssoc acc DICT_GOOGLE_IMAGES []) total
    else if d.dict = DICT_FORVO then
      searchLoop db search_mode deinflect conjugations dict_limit max_defs terms
        rest (setAssoc acc DICT_FORVO []) total
    else
      match search_terms_for terms deinflect conjugations d.lang with
      | none => none
      | some st =>
        match search_dictionary db d.dict (apply_search_mode st search_mode)
            search_mode dict_limit with
        | [] =>
          searchLoop db search_mode deinflect conjugations dict_limit max_defs terms
            rest acc total
        | e :: es =>
          if max_defs ≤ total + (e :: es).length then
            some (setAssoc acc (clean_dict_name d.dict) (e :: es),
              total + (e :: es).length)
          else
            searchLoop db search_mode deinflect conjugations dict_limit max_defs terms
              rest (setAssoc acc (clean_dict_name d.dict) (e :: es))
              (total + (e :: es).length)

/-- `DictionaryRepository.search_term`. -/
def search_term (db : DB) (term : Str) (dictionaries : List DictGroupEntry)
    (search_mode : Str) (deinflect : Bool)
    (conjugations : List (Str × List ConjRule)) (dict_limit max_defs : Nat) :
    Option SearchResult :=
  match searchLoop db search_mode deinflect conjugations dict_limit max_defs
      (prepare_search_terms term) dictionaries [] 0 with
  | none => none
  | some (res, total) => some ⟨res, total⟩

/-! ## Search invariants -/

theorem mem_setAssoc {m : List (Str × List DictionaryEntry)} {k : Str}
    {v : List DictionaryEntry} {p : Str × List DictionaryEntry}
    (h : p ∈ setAssoc m k v) : p ∈ m ∨ p = (k, v) := by
  unfold setAssoc at h
  by_cases ha : m.any (fun q => q.1 = k)
  · rw [if_pos ha] at h
    obtain ⟨q, hq, hfq⟩ := List.mem_map.mp h
    by_cases hk : q.1 = k
    · rw [if_pos hk] at hfq
      exact Or.inr hfq.symm
    · rw [if_neg hk] at hfq
      exact Or.inl (hfq ▸ hq)
  · rw [if_neg ha] at h
    rcases List.mem_append.mp h with h | h
    · exact Or.inl h
    · exact Or.inr (by simpa using h)

theorem length_search_dictionary (db : DB) (dn : Str) (terms : List Str)
    (mode : Str) (K : Nat) : (search_dictionary db dn terms mode K).length ≤ K := by
  unfold search_dictionary
  cases lookupTable db dn with
  | none => simp
  | some tbl =>
    simpa using length_runQuery tbl (get_search_column mode) terms
      (search_operator mode) K

theorem freq_search_dictionary {db : DB} {dn : Str} {terms : List Str}
    {mode : Str} {K : Nat} :
    ∀ e ∈ search_dictionary db dn terms mode K, e.frequency = 0 := by
  intro e he
  unfold search_dictionary at he
  cases hl : lookupTable db dn with
  | none => rw [hl] at he; simp at he
  | some tbl =>
    rw [hl] at he
    simp only [List.mem_map] at he
    obtain ⟨r, _, hr⟩ := he
    rw [← hr]
    rfl

/-- Any per-entry-list property that holds of the empty list and of every
single-dictionary query result is preserved by the search loop. -/
theorem searchLoop_preserve (db : DB) (mode : Str) (dflt : Bool)
    (conj : List (Str × List ConjRule)) (K N : Nat) (terms : List Str)
    (Pv : List DictionaryEntry → Prop) (hnil : Pv [])
    (hq : ∀ dn ts, Pv (search_dictionary db dn ts mode K)) :
    ∀ (l : List DictGroupEntry) acc total r t,
      (∀ p ∈ acc, Pv p.2) →
      searchLoop db mode dflt conj K N terms l acc total = some (r, t) →
      ∀ p ∈ r, Pv p.2 := by
  intro l
  induction l with
  | nil =>
    intro acc total r t hacc h
    simp only [searchLoop, Option.some.injEq, Prod.mk.injEq] at h
    obtain ⟨h1, _⟩ := h
    exact h1 ▸ hacc
  | cons d rest ih =>
    intro acc total r t hacc h
    have hset : ∀ (k : Str) (v : List DictionaryEntry), Pv v →
        ∀ p ∈ setAssoc acc k v, Pv p.2 := by
      intro k v hv p hp
      rcases mem_setAssoc hp with hp | hp
      · exact hacc p hp
      · rw [hp]; exact hv
    simp only [searchLoop] at h
    by_cases hg : d.dict = DICT_GOOGLE_IMAGES
    · rw [if_pos hg] at h
      exact ih _ _ _ _ (hset _ _ hnil) h
    · rw [if_neg hg] at h
      by_cases hf : d.dict = DICT_FORVO
      · rw [if_pos hf] at h
        exact ih _ _ _ _ (hset _ _ hnil) h
      · rw [if_neg hf] at h
        cases hst : search_terms_for terms dflt conj d.lang with
        | none => rw [hst] at h; simp at h
        | some st =>
          rw [hst] at h
          simp only [] at h
          cases hsd : search_dictionary db d.dict (apply_search_mode st mode)
              mode K with
          | nil =>
            rw [hsd] at h
            exact ih _ _ _ _ hacc h
          | cons e es =>
            rw [hsd] at h
            simp only [] at h
            have hPentries : Pv (e :: es) := hsd ▸ hq d.dict (apply_search_mode st mode)
            by_cases hb : N ≤ total + (e :: es).length
            · rw [if_pos hb] at h
              simp only [Option.some.injEq, Prod.mk.injEq] at h
              obtain ⟨h1, _⟩ := h
              exact h1 ▸ hset _ _ hPentries
            · rw [if_neg hb] at h
              exact ih _ _ _ _ (hset _ _ hPentries) h

/-- Entering with a running total ≤ `N - 1`, the loop ends with a total of
at most `N - 1 + K` (truncated subtraction): each accepted batch has at most
`K` entries and the loop breaks as soon as the total reaches `N`. -/
theorem searchLoop_total_le (db : DB) (mode : Str) (dflt : Bool)
    (conj : List (Str × List ConjRule)) (K N : Nat) (terms : List Str) :
    ∀ (l : List DictGroupEntry) acc total r t,
      total ≤ N - 1 →
      searchLoop db mode dflt conj K N terms l acc total = some (r, t) →
      t ≤ N - 1 + K := by
  intro l
  induction l with
  | nil =>
    intro acc total r t htot h
    simp only [searchLoop, Option.some.injEq, Prod.mk.injEq] at h
    obtain ⟨_, h2⟩ := h
    omega
  | cons d rest ih =>
    intro acc total r t htot h
    simp only [searchLoop] at h
    by_cases hg : d.dict = DICT_GOOGLE_IMAGES
    · rw [if_pos hg] at h
      exact ih _ _ _ _ htot h
    · rw [if_neg hg] at h
      by_cases hf : d.dict = DICT_FORVO
      · rw [if_pos hf] at h
        exact ih _ _ _ _ htot h
      · rw [if_neg hf] at h
        cases hst : search_terms_for terms dflt conj d.lang with
        | none => rw [hst] at h; simp at h
        | some st =>
          rw [hst] at h
          simp only [] at h
          cases hsd : search_dictionary db d.dict (apply_search_mode st mode)
              mode K with
          | nil =>
            rw [hsd] at h
            exact ih _ _ _ _ htot h
          | cons e es =>
            rw [hsd] at h
            simp only [] at h
            have hlen : (e :: es).length ≤ K := by
              have := length_search_dictionary db d.dict
                (apply_search_mode st mode) mode K
              rw [hsd] at this
              exact this
            by_cases hb : N ≤ total + (e :: es).length
            · rw [if_pos hb] at h
              simp only [Option.some.injEq, Prod.mk.injEq] at h
              obtain ⟨_, h2⟩ := h
              omega
            · rw [if_neg hb] at h
              exact ih _ _ _ _ (by omega) h

/-- If the loop over a prefix group already ends with total ≥ `N` (entering
below `N`), appending further dictionaries does not change the outcome: the
loop breaks before reaching them. -/
theorem searchLoop_break_prefix (db : DB) (mode : Str) (dflt : Bool)
    (conj : List (Str × List ConjRule)) (K N : Nat) (terms : List Str) :
    ∀ (l post : List DictGroupEntry) acc total r t,
      total < N →
      searchLoop db mode dflt conj K N terms l acc total = some (r, t) →
      N ≤ t →
      searchLoop db mode dflt conj K N terms (l ++ post) acc total = some (r, t) := by
  intro l
  induction l with
  | nil =>
    intro post acc total r t htot h hN
    simp only [searchLoop, Option.some.injEq, Prod.mk.injEq] at h
    obtain ⟨_, h2⟩ := h
    omega
  | cons d rest ih =>
    intro post acc total r t htot h hN
    simp only [searchLoop] at h ⊢
    by_cases hg : d.dict = DICT_GOOGLE_IMAGES
    · rw [if_pos hg] at h ⊢
      exact ih _ _ _ _ _ htot h hN
    · rw [if_neg hg] at h ⊢
      by_cases hf : d.dict = DICT_FORVO
      · rw [if_pos hf] at h ⊢
        exact ih _ _ _ _ _ htot h hN
      · rw [if_neg hf] at h ⊢
        cases hst : search_terms_for terms dflt conj d.lang with
        | none => rw [hst] at h; simp at h
        | some st =>
          rw [hst] at h
          simp only [] at h ⊢
          cases hsd : search_dictionary db d.dict (apply_search_mode st mode)
              mode K with
          | nil =>
            rw [hsd] at h
            exact ih _ _ _ _ _ htot h hN
          | cons e es =>
            rw [hsd] at h
            simp only [] at h ⊢
            by_cases hb : N ≤ total + (e :: es).length
            · rw [if_pos hb] at h ⊢
              exact h
            · rw [if_neg hb] at h ⊢
              exact ih _ _ _ _ _ (by omega) h hN

theorem search_dictionary_missing {db : DB} {dn : Str} (terms : List Str)
    (mode : Str) (K : Nat) (h : lookupTable db dn = none) :
    search_dictionary db dn terms mode K = [] := by
  unfold search_dictionary
  rw [h]

/-- Concrete inputs for the C10 witness. -/
def c10Row : Row :=
  ⟨"cat".data, [], [], [], "a cat".data, [], [], 7, "3".data⟩

def c10DB : DB := ⟨[], [], [("l1namec".data, [c10Row])]⟩

/-- C10: for every search request, every `DictionaryEntry` in the returned
`SearchResult` has its frequency field equal to 0, regardless of the
frequency stored in the dictionary's physical table (the SELECT list of
`_build_search_query` omits `frequency` and `_row_to_entry` hard-codes 0;
the stored value is only used by the `ORDER BY`). -/
theorem search_entries_frequency_zero
    (db : DB) (term : Str) (dicts : List DictGroupEntry) (mode : Str)
    (dflt : Bool) (conj : List (Str × List ConjRule)) (K N : Nat)
    (res : SearchResult)
    (h : search_term db term dicts mode dflt conj K N = some res) :
    ∀ p ∈ res.results, ∀ e ∈ p.2, e.frequency = 0 := by
  unfold search_term at h
  cases hl : searchLoop db mode dflt conj K N (prepare_search_terms term)
      dicts [] 0 with
  | none => rw [hl] at h; simp at h
  | some rt =>
    rw [hl] at h
    obtain ⟨r, t⟩ := rt
    simp only [Option.some.injEq] at h
    intro p hp e he
    have hall := searchLoop_preserve db mode dflt conj K N
      (prepare_search_terms term)
      (fun es => ∀ e' ∈ es, e'.frequency = 0) (by simp)
      (fun dn ts => freq_search_dictionary) dicts [] 0 r t (by simp) hl
    have hres : res.results = r := by rw [← h]
    exact hall p (hres ▸ hp) e he

/-- Witness for C10: a stored row with frequency 7 is returned with
frequency 0. -/
theorem search_entries_frequency_zero_witness :
    (row_to_entry c10Row).frequency = 0 :=
  search_entries_frequency_zero c10DB "cat".data
    [⟨"l1namec".data, "x".data⟩] "Exact".data false [] 5 10
    ⟨[("c".data, [row_to_entry c10Row])], 1⟩ (by decide)
    ("c".data, [row_to_entry c10Row]) (by decide)
    (row_to_entry c10Row) (by decide)

/-- Concrete inputs for the C2 counterexample: two dictionaries of four
matching rows each, per-dictionary limit 4, global limit 5. -/
def c2Row : Row := ⟨"cat".data, [], [], [], "a cat".data, [], [], 1, []⟩

def c2DB : DB :=
  ⟨[], [],
   [("l1namea".data, [c2Row, c2Row, c2Row, c2Row]),
    ("l1nameb".data, [c2Row, c2Row, c2Row, c2Row])]⟩

def c2Group : List DictGroupEntry :=
  [⟨"l1namea".data, "x".data⟩, ⟨"l1nameb".data, "x".data⟩]

/-- C2 counterexample: with `global_limit N = 5` and
`per_dictionary_limit K = 4`, the search returns `total_count = 8 > 5`: the
cap is only checked *after* a whole dictionary batch has been appended, so
the total can overshoot the global limit by up to one batch. -/
theorem search_total_exceeds_global_limit_cex :
    Option.map SearchResult.total_count
      (search_term c2DB "cat".data c2Group "Exact".data false [] 4 5) = some 8 ∧
    ¬ (8 ≤ 5) := by
  exact ⟨by decide, by decide⟩

/-- C2 amended: for every request with global limit `N` and per-dictionary
limit `K`, `total_count ≤ (N-1) + K` (truncated subtraction — the total can
overshoot `N` by at most one dictionary batch, and is at most `K` when
`N = 0`), each dictionary's result list has at most `K` entries, and once
the running total reaches `N` (for `N ≥ 1`) no dictionary positioned later
in the group is queried — appending further dictionaries leaves the result
unchanged. -/
theorem search_term_bounds (db : DB) (term : Str) (mode : Str) (dflt : Bool)
    (conj : List (Str × List ConjRule)) (K N : Nat) :
    (∀ dicts res, search_term db term dicts mode dflt conj K N = some res →
      res.total_count ≤ N - 1 + K ∧ ∀ p ∈ res.results, p.2.length ≤ K) ∧
    (∀ pre post res, 1 ≤ N →
      search_term db term pre mode dflt conj K N = some res →
      N ≤ res.total_count →
      search_term db term (pre ++ post) mode dflt conj K N = some res) := by
  constructor
  · intro dicts res h
    unfold search_term at h
    cases hl : searchLoop db mode dflt conj K N (prepare_search_terms term)
        dicts [] 0 with
    | none => rw [hl] at h; simp at h
    | some rt =>
      rw [hl] at h
      obtain ⟨r, t⟩ := rt
      simp only [Option.some.injEq] at h
      constructor
      · have := searchLoop_total_le db mode dflt conj K N
          (prepare_search_terms term) dicts [] 0 r t (by omega) hl
        rw [← h]
        exact this
      · intro p hp
        have hall := searchLoop_preserve db mode dflt conj K N
          (prepare_search_terms term) (fun es => es.length ≤ K) (by simp)
          (fun dn ts => length_search_dictionary db dn ts mode K)
          dicts [] 0 r t (by simp) hl
        have hres : res.results = r := by rw [← h]
        exact hall p (hres ▸ hp)
  · intro pre post res hN h hle
    unfold search_term at h ⊢
    cases hl : searchLoop db mode dflt conj K N (prepare_search_terms term)
        pre [] 0 with
    | none => rw [hl] at h; simp at h
    | some rt =>
      rw [hl] at h
      obtain ⟨r, t⟩ := rt
      simp only [Option.some.injEq] at h
      have htc : res.total_count = t := by rw [← h]
      have hbp := searchLoop_break_prefix db mode dflt conj K N
        (prepare_search_terms term) pre post [] 0 r t (by omega) hl
        (by omega)
      rw [hbp]
      exact congrArg some h

/-- Witness for C2 at a concrete single-dictionary request (one matching
row, `K = 4`, `N = 5`): the amended global bound holds. -/
theorem search_term_bounds_witness :
    (⟨[("a".data, [row_to_entry c2Row])], 1⟩ : SearchResult).total_count ≤
      5 - 1 + 4 :=
  ((search_term_bounds
    (⟨[], [], [("l1namea".data, [c2Row])]⟩ : DB) "cat".data "Exact".data
    false [] 4 5).1 [⟨"l1namea".data, "x".data⟩]
    ⟨[("a".data, [row_to_entry c2Row])], 1⟩ (by decide)).1

/-- A dictionary whose physical table is missing (storage error, caught and
treated as empty) contributes nothing: the loop behaves as if the
dictionary were absent from the group. -/
theorem searchLoop_skip_missing (db : DB) (mode : Str) (dflt : Bool)
    (conj : List (Str × List ConjRule)) (K N : Nat) (terms : List Str)
    (d : DictGroupEntry) (post : List DictGroupEntry) (st : List Str)
    (hmiss : lookupTable db d.dict = none)
    (hg : d.dict ≠ DICT_GOOGLE_IMAGES) (hf : d.dict ≠ DICT_FORVO)
    (hst : search_terms_for terms dflt conj d.lang = some st) :
    ∀ (pre : List DictGroupEntry) acc total,
      searchLoop db mode dflt conj K N terms (pre ++ d :: post) acc total =
        searchLoop db mode dflt conj K N terms (pre ++ post) acc total := by
  intro pre
  induction pre with
  | nil =>
    intro acc total
    simp only [List.nil_append, searchLoop, if_neg hg, if_neg hf, hst]
    rw [search_dictionary_missing _ mode K hmiss]
  | cons p pre ih =>
    intro acc total
    simp only [List.cons_append, searchLoop]
    by_cases hpg : p.dict = DICT_GOOGLE_IMAGES
    · rw [if_pos hpg, if_pos hpg]
      exact ih _ _
    · rw [if_neg hpg, if_neg hpg]
      by_cases hpf : p.dict = DICT_FORVO
      · rw [if_pos hpf, if_pos hpf]
        exact ih _ _
      · rw [if_neg hpf, if_neg hpf]
        cases hst2 : search_terms_for terms dflt conj p.lang with
        | none => rfl
        | some st2 =>
          simp only []
          cases hsd : search_dictionary db p.dict (apply_search_mode st2 mode)
              mode K with
          | nil => exact ih _ _
          | cons e es =>
            simp only []
            by_cases hb : N ≤ total + (e :: es).length
            · rw [if_pos hb, if_pos hb]
            · rw [if_neg hb, if_neg hb]
              exact ih _ _

/-- Concrete inputs for the C6 witness: the registry points at table
`l1namea`, which does not exist; `l1nameb` exists and matches. -/
def c6Row : Row := ⟨"cat".data, [], [], [], "a cat".data, [], [], 1, []⟩

def c6DB : DB := ⟨[], [], [("l1nameb".data, [c6Row])]⟩

/-- C6: a storage error while querying one dictionary's physical table (a
registry row whose table has been dropped) is treated as an empty result
for that dictionary only: the multi-dictionary search returns exactly what
it would return for the group without that dictionary, so every other
dictionary's results are unaffected and no error escapes. -/
theorem search_storage_error_isolated
    (db : DB) (term : Str) (pre post : List DictGroupEntry)
    (d : DictGroupEntry) (mode : Str) (dflt : Bool)
    (conj : List (Str × List ConjRule)) (K N : Nat) (st : List Str)
    (hmiss : lookupTable db d.dict = none)
    (hg : d.dict ≠ DICT_GOOGLE_IMAGES) (hf : d.dict ≠ DICT_FORVO)
    (hst : search_terms_for (prepare_search_terms term) dflt conj d.lang = some st) :
    search_term db term (pre ++ d :: post) mode dflt conj K N =
      search_term db term (pre ++ post) mode dflt conj K N := by
  unfold search_term
  rw [searchLoop_skip_missing db mode dflt conj K N (prepare_search_terms term)
    d post st hmiss hg hf hst pre [] 0]

/-- Witness for C6: a group whose first dictionary's table was dropped
behaves exactly like the group without it. -/
theorem search_storage_error_isolated_witness :
    search_term c6DB "cat".data
      [⟨"l1namea".data, "x".data⟩, ⟨"l1nameb".data, "x".data⟩]
      "Exact".data false [] 4 10 =
    search_term c6DB "cat".data [⟨"l1nameb".data, "x".data⟩]
      "Exact".data false [] 4 10 :=
  search_storage_error_isolated c6DB "cat".data []
    [⟨"l1nameb".data, "x".data⟩] ⟨"l1namea".data, "x".data⟩
    "Exact".data false [] 4 10 (prepare_search_terms "cat".data)
    (by decide) (by decide) (by decide) rfl

/-! ## Mass-export lookup (`DictDB.getDefForMassExp` / `executeSearch`) -/

/-- The dict produced by `DictDB.resultToDict` (the 8 selected columns). -/
structure ResultDict where
  term : Str
  altterm : Str
  pronunciation : Str
  pos : Str
  definition : Str
  examples : Str
  audio : Str
  starCount : Str
deriving DecidableEq

/-- `DictDB.resultToDict`. -/
def resultToDict (r : Row) : ResultDict :=
  ⟨r.term, r.altterm, r.pronunciation, r.pos, r.definition, r.examples,
   r.audio, r.starCount⟩

/-- `DictDB.executeSearch` with the `' col = ? '` clause built by
`getDefForMassExp` (single exact term; same ORDER BY / LIMIT as the
repository query; `sqlite3.Error` is caught and yields `[]`). -/
def executeSearchExact (db : DB) (dict_name col term : Str) (limit : Nat) :
    List Row :=
  match lookupTable db dict_name with
  | none => []
  | some tbl => runQuery tbl col [term] "=".data limit

/-- The column-fallback loop of `getDefForMassExp` over
`['term', 'altterm', 'pronunciation']`: the first column whose exact query
is non-empty supplies the results (the loop `break`s). -/
def massExpLoop (db : DB) (dict_name term : Str) (limit : Nat) :
    List Str → List ResultDict
  | [] => []
  | col :: rest =>
    match executeSearchExact db dict_name col term limit with
    | [] => massExpLoop db dict_name term limit rest
    | r :: rs => (r :: rs).map resultToDict

/-- The `results` component of `DictDB.getDefForMassExp` (the
`duplicate_header` / `term_header` components are an independent registry
read not involved in the fallback behaviour). -/
def getDefForMassExp_results (db : DB) (term dict_name : Str) (limit : Nat) :
    List ResultDict :=
  massExpLoop db dict_name term limit
    ["term".data, "altterm".data, "pronunciation".data]

/-- Concrete inputs for C1: the table holds one row whose `term` is `"dog"`
but whose `altterm` is `"cat"`. -/
def c1Row : Row := ⟨"dog".data, "cat".data, [], [], "woof".data, [], [], 1, []⟩

def c1DB : DB := ⟨[], [], [("l1named".data, [c1Row])]⟩

/-- C1 counterexample: a `Forward` search (a mode that is none of
`Definition`/`Example`/`Pronunciation`) whose primary `term`-column query
returns zero rows is **not** retried against `altterm`: the search returns
an empty result even though the same term set matched against the `altterm`
column is non-empty. -/
theorem search_no_altterm_retry_cex :
    search_term c1DB "cat".data [⟨"l1named".data, "x".data⟩] "Forward".data
      false [] 10 10 = some ⟨[], 0⟩ ∧
    runQuery [c1Row] "altterm".data
      (apply_search_mode (prepare_search_terms "cat".data) "Forward".data)
      "LIKE".data 10 ≠ [] := by
  exact ⟨by decide, by decide⟩

/-- C1 amended: the repository search performs no column fallback at all —
a dictionary whose mode-determined column query returns zero rows is
treated as empty, whatever `altterm`/`pronunciation` would match.  The
term → altterm → pronunciation stop-at-first-non-empty fallback exists only
in the mass-export lookup `getDefForMassExp`, which always uses exact
matching. -/
theorem search_single_column_massexp_fallback :
    (∀ (db : DB) (term d lang mode : Str) (dflt : Bool)
        (conj : List (Str × List ConjRule)) (K N : Nat) (st : List Str),
      d ≠ DICT_GOOGLE_IMAGES → d ≠ DICT_FORVO →
      search_terms_for (prepare_search_terms term) dflt conj lang = some st →
      search_dictionary db d (apply_search_mode st mode) mode K = [] →
      search_term db term [⟨d, lang⟩] mode dflt conj K N = some ⟨[], 0⟩) ∧
    (∀ (db : DB) (dn term : Str) (K : Nat),
      executeSearchExact db dn "term".data term K = [] →
      getDefForMassExp_results db term dn K =
        (match executeSearchExact db dn "altterm".data term K with
         | [] =>
           (executeSearchExact db dn "pronunciation".data term K).map resultToDict
         | r :: rs => (r :: rs).map resultToDict)) ∧
    (∀ (db : DB) (dn term : Str) (K : Nat) (r : Row) (rs : List Row),
      executeSearchExact db dn "term".data term K = r :: rs →
      getDefForMassExp_results db term dn K = (r :: rs).map resultToDict) := by
  refine ⟨?_, ?_, ?_⟩
  · intro db term d lang mode dflt conj K N st hg hf hst hsd
    have hone : searchLoop db mode dflt conj K N (prepare_search_terms term)
        [⟨d, lang⟩] [] 0 = some ([], 0) := by
      simp only [searchLoop]
      rw [if_neg hg, if_neg hf, hst]
      simp only []
      rw [hsd]
    unfold search_term
    rw [hone]
  · intro db dn term K h
    simp only [getDefForMassExp_results, massExpLoop]
    rw [h]
    simp only []
    cases ha : executeSearchExact db dn "altterm".data term K with
    | nil =>
      simp only []
      cases hp : executeSearchExact db dn "pronunciation".data term K with
      | nil => simp
      | cons q qs => simp
    | cons r rs => simp only []
  · intro db dn term K r rs h
    simp only [getDefForMassExp_results, massExpLoop]
    rw [h]

/-- Witness for C1: on the concrete store, the mass-export lookup falls
back to the `altterm` column. -/
theorem search_single_column_massexp_fallback_witness :
    getDefForMassExp_results c1DB "cat".data "l1named".data 5 =
      (match executeSearchExact c1DB "l1named".data "altterm".data "cat".data 5 with
       | [] =>
         (executeSearchExact c1DB "l1named".data "pronunciation".data
           "cat".data 5).map resultToDict
       | r :: rs => (r :: rs).map resultToDict) :=
  search_single_column_massexp_fallback.2.1 c1DB "l1named".data "cat".data 5
    (by decide)

/-! ## Dictionary deletion (`DictionaryRepository.delete_dictionary`) -/

/-- `DictionaryRepository._drop_tables`: drop every table whose name matches
the argument interpreted as a SQL `LIKE` pattern
(`SELECT name FROM sqlite_master WHERE type='table' AND name LIKE ?`). -/
def drop_tables (db : DB) (pattern : Str) : DB :=
  { db with tables := db.tables.filter (fun p => !likeMatch pattern p.1) }

/-- `DictionaryRepository.delete_dictionary`: drop tables matching the name
as a `LIKE` pattern, delete the registry rows whose `dictname` equals the
cleaned name, commit (the trailing `VACUUM` does not change data). -/
def delete_dictionary (db : DB) (dict_name : Str) : DB :=
  let db1 := drop_tables db dict_name
  { db1 with
    dictnames :=
      db1.dictnames.filter
        (fun row => !(row.dictname = clean_dict_name dict_name)) }

/-- Concrete inputs for the C3 counterexample: dictionaries `a_b` and `aXb`
both registered for language 1 (their names survive normalization
unchanged). -/
def c3DB : DB :=
  ⟨[(1, "English".data)],
   [⟨"a_b".data, 1, "[]".data, "add".data, "[]".data, 0⟩,
    ⟨"aXb".data, 1, "[]".data, "add".data, "[]".data, 0⟩],
   [("l1namea_b".data, []), ("l1nameaXb".data, [])]⟩

/-- C3 counterexample: deleting the registered dictionary `a_b` (table
`l1namea_b`) also drops the *other* registered dictionary's table
`l1nameaXb`, because `_drop_tables` matches the table name as a `LIKE`
pattern and `_` is a single-character wildcard: both tables vanish while
`aXb`'s registry row survives. -/
theorem delete_dictionary_drops_other_table_cex :
    format_dict_name 1 (normalize_dict_name "a_b".data) = "l1namea_b".data ∧
    format_dict_name 1 (normalize_dict_name "aXb".data) = "l1nameaXb".data ∧
    (delete_dictionary c3DB "l1namea_b".data).tables = [] ∧
    (delete_dictionary c3DB "l1namea_b".data).dictnames =
      [⟨"aXb".data, 1, "[]".data, "add".data, "[]".data, 0⟩] := by
  exact ⟨by decide, by decide, by decide, by decide⟩

/-- C3 amended: for a table name free of the SQL `LIKE` wildcard characters
`%` and `_`, `delete_dictionary` drops exactly the table with that name
(every other table survives) and removes exactly the registry rows whose
`dictname` equals the cleaned name (its own row, and — since `dictname` is
UNIQUE — only that row), leaving languages untouched.  For names containing
a wildcard, other dictionaries' tables can be dropped as well (see the
counterexample). -/
theorem delete_dictionary_frame (db : DB) (dict_name : Str)
    (hnw1 : '%' ∉ dict_name) (hnw2 : '_' ∉ dict_name) :
    (∀ p ∈ db.tables, p.1 ≠ dict_name →
      p ∈ (delete_dictionary db dict_name).tables) ∧
    (∀ p ∈ (delete_dictionary db dict_name).tables,
      p ∈ db.tables ∧ p.1 ≠ dict_name) ∧
    (∀ row ∈ db.dictnames, row.dictname ≠ clean_dict_name dict_name →
      row ∈ (delete_dictionary db dict_name).dictnames) ∧
    (∀ row ∈ (delete_dictionary db dict_name).dictnames,
      row ∈ db.dictnames ∧ row.dictname ≠ clean_dict_name dict_name) ∧
    (delete_dictionary db dict_name).langnames = db.langnames := by
  have hlike : ∀ s : Str, likeMatch dict_name s = true ↔ s = dict_name :=
    fun s => likeMatch_no_wildcards dict_name s hnw1 hnw2
  refine ⟨?_, ?_, ?_, ?_, rfl⟩
  · intro p hp hne
    simp only [delete_dictionary, drop_tables]
    apply List.mem_filter.mpr
    refine ⟨hp, ?_⟩
    simp only [Bool.not_eq_eq_eq_not, Bool.not_true]
    by_cases hm : likeMatch dict_name p.1 = true
    · exact absurd ((hlike p.1).mp hm) hne
    · simpa using hm
  · intro p hp
    simp only [delete_dictionary, drop_tables] at hp
    obtain ⟨h1, h2⟩ := List.mem_filter.mp hp
    refine ⟨h1, ?_⟩
    intro heq
    rw [(hlike p.1).mpr heq] at h2
    simp at h2
  · intro row hrow hne
    simp only [delete_dictionary, drop_tables]
    apply List.mem_filter.mpr
    exact ⟨hrow, by simpa using hne⟩
  · intro row hrow
    simp only [delete_dictionary, drop_tables] at hrow
    have h := List.mem_filter.mp hrow
    exact ⟨h.1, by simpa using h.2⟩

/-- Concrete inputs for the C3 witness: two wildcard-free table names. -/
def c3wDB : DB :=
  ⟨[(1, "English".data)],
   [⟨"abc".data, 1, "[]".data, "add".data, "[]".data, 0⟩,
    ⟨"xyz".data, 1, "[]".data, "add".data, "[]".data, 0⟩],
   [("l1nameabc".data, []), ("l1namexyz".data, [])]⟩

/-- Witness for C3: deleting wildcard-free `l1nameabc` leaves `l1namexyz`'s
table and `xyz`'s registry row in place. -/
theorem delete_dictionary_frame_witness :
    ("l1namexyz".data, ([] : List Row)) ∈
      (delete_dictionary c3wDB "l1nameabc".data).tables ∧
    (⟨"xyz".data, 1, "[]".data, "add".data, "[]".data, 0⟩ : DictRow) ∈
      (delete_dictionary c3wDB "l1nameabc".data).dictnames :=
  ⟨(delete_dictionary_frame c3wDB "l1nameabc".data (by decide) (by decide)).1
      ("l1namexyz".data, []) (by decide) (by decide),
   (delete_dictionary_frame c3wDB "l1nameabc".data (by decide) (by decide)).2.2.1
      ⟨"xyz".data, 1, "[]".data, "add".data, "[]".data, 0⟩ (by decide) (by decide)⟩

/-! ## Dictionary creation (`DictionaryRepository.add_dictionary`) -/

/-- `DictionaryRepository.get_language_id`
(`SELECT id FROM langnames WHERE langname = ?` + `fetchone`). -/
def get_language_id (db : DB) (language : Str) : Option Nat :=
  (db.langnames.find? (fun p => p.2 = language)).map (fun p => p.1)

/-- `DictionaryRepository._create_dictionary_table`
(`CREATE TABLE IF NOT EXISTS` — idempotent, a fresh table is empty; the
index creation has no effect on data). -/
def create_dictionary_table (tables : List (Str × List Row)) (table_name : Str) :
    List (Str × List Row) :=
  if tables.any (fun p => p.1 = table_name) then tables
  else tables ++ [(table_name, [])]

/-- The outcome of `add_dictionary`; the Python method returns
`(success, message, final_name)` — the human-readable message string is
elided, only its class is kept. -/
inductive AddDictResult
  | ok (final_name : Str)
  | languageNotFound
  | storageError
deriving DecidableEq

/-- `DictionaryRepository.add_dictionary`.  `Python `if not lang_id` treats
a 0 id like a missing language.  The two failure sources inside the `try`
block are the `UNIQUE(dictname)` violation of the INSERT (the registry
schema in `init_db.py` declares `dictname TEXT UNIQUE NOT NULL`) and an
arbitrary storage failure during table creation, injected through
`createFails`; `except` rolls the transaction back, so the state is
returned unchanged on every failure. -/
def add_dictionary (db : DB) (name language term_header : Str)
    (createFails : Bool) : DB × AddDictResult :=
  match get_language_id db language with
  | none => (db, .languageNotFound)
  | some lid =>
    if lid = 0 then (db, .languageNotFound)
    else
      let clean_name := normalize_dict_name name
      if db.dictnames.any (fun row => row.dictname = clean_name) then
        (db, .storageError)
      else if createFails then
        (db, .storageError)
      else
        ({ db with
            dictnames := db.dictnames ++
              [⟨clean_name, lid, "[]".data, "add".data, term_header, 0⟩],
            tables := create_dictionary_table db.tables
              (format_dict_name lid clean_name) },
         .ok clean_name)

/-- C5: `add_dictionary` returns an explicit NotFound-style error (leaving
storage unchanged) when the language is unknown; on success it appends a
registry row with default field list `"[]"`, default add-type `"add"`,
duplicate-header `0`, and creates the physical table while preserving all
existing tables; and on any failure it returns an explicit error value with
the storage unchanged (the transaction is rolled back) — it never raises,
being a total function. -/
theorem add_dictionary_spec (db : DB) (name language term_header : Str)
    (createFails : Bool) :
    ((get_language_id db language = none ∨ get_language_id db language = some 0) →
      add_dictionary db name language term_header createFails =
        (db, AddDictResult.languageNotFound)) ∧
    (∀ db2 res, add_dictionary db name language term_header createFails = (db2, res) →
      ((res = AddDictResult.languageNotFound ∨ res = AddDictResult.storageError) →
        db2 = db) ∧
      (∀ fn, res = AddDictResult.ok fn →
        fn = normalize_dict_name name ∧
        ∃ lid, get_language_id db language = some lid ∧ lid ≠ 0 ∧
          db2.dictnames = db.dictnames ++
            [⟨fn, lid, "[]".data, "add".data, term_header, 0⟩] ∧
          (db2.tables.any (fun p => p.1 = format_dict_name lid fn)) = true ∧
          (∀ p ∈ db.tables, p ∈ db2.tables) ∧
          db2.langnames = db.langnames)) := by
  constructor
  · intro h
    unfold add_dictionary
    rcases h with h | h
    · rw [h]
    · rw [h]
      simp
  · intro db2 res h
    unfold add_dictionary at h
    cases hl : get_language_id db language with
    | none =>
      rw [hl] at h
      simp only [Prod.mk.injEq] at h
      obtain ⟨h1, h2⟩ := h
      constructor
      · intro _; exact h1.symm
      · intro fn hfn
        rw [← h2] at hfn
        cases hfn
    | some lid =>
      rw [hl] at h
      simp only [] at h
      by_cases h0 : lid = 0
      · rw [if_pos h0] at h
        simp only [Prod.mk.injEq] at h
        obtain ⟨h1, h2⟩ := h
        constructor
        · intro _; exact h1.symm
        · intro fn hfn
          rw [← h2] at hfn
          cases hfn
      · rw [if_neg h0] at h
        by_cases hdup : db.dictnames.any
            (fun row => row.dictname = normalize_dict_name name)
        · rw [if_pos hdup] at h
          simp only [Prod.mk.injEq] at h
          obtain ⟨h1, h2⟩ := h
          constructor
          · intro _; exact h1.symm
          · intro fn hfn
            rw [← h2] at hfn
            cases hfn
        · rw [if_neg hdup] at h
          by_cases hcf : createFails
          · rw [if_pos hcf] at h
            simp only [Prod.mk.injEq] at h
            obtain ⟨h1, h2⟩ := h
            constructor
            · intro _; exact h1.symm
            · intro fn hfn
              rw [← h2] at hfn
              cases hfn
          · rw [if_neg hcf] at h
            simp only [Prod.mk.injEq] at h
            obtain ⟨h1, h2⟩ := h
            constructor
            · intro hbad
              rw [← h2] at hbad
              rcases hbad with hbad | hbad <;> cases hbad
            · intro fn hfn
              rw [← h2] at hfn
              cases hfn
              refine ⟨rfl, lid, rfl, h0, ?_, ?_, ?_, ?_⟩
              · rw [← h1]
              · rw [← h1]
                simp only [create_dictionary_table]
                by_cases hex : db.tables.any
                    (fun p => p.1 = format_dict_name lid (normalize_dict_name name))
                · rw [if_pos hex]; exact hex
                · rw [if_neg hex]
                  simp
              · intro p hp
                rw [← h1]
                simp only [create_dictionary_table]
                by_cases hex : db.tables.any
                    (fun p => p.1 = format_dict_name lid (normalize_dict_name name))
                · rw [if_pos hex]; exact hp
                · rw [if_neg hex]
                  exact List.mem_append_left _ hp
              · rw [← h1]

/-- Witness for C5: adding a dictionary for an unregistered language fails
with the NotFound-style result and leaves the (empty) store unchanged. -/
theorem add_dictionary_spec_witness :
    add_dictionary (⟨[], [], []⟩ : DB) "JMdict".data "Japanese".data
      "[]".data false = ((⟨[], [], []⟩ : DB), AddDictResult.languageNotFound) :=
  (add_dictionary_spec (⟨[], [], []⟩ : DB) "JMdict".data "Japanese".data
    "[]".data false).1 (Or.inl rfl)

/-! ## Characterization of deinflection -/

theorem rfindFrom_spec (s old : Str) (i0 : Nat) :
    ∀ top, i0 ≤ top →
      old.isPrefixOf (s.drop i0) = true →
      (∀ j, i0 < j → j ≤ top → old.isPrefixOf (s.drop j) = false) →
      rfindFrom s old top = some i0 := by
  intro top
  induction top with
  | zero =>
    intro h0 hp _
    have hi : i0 = 0 := Nat.le_zero.mp h0
    subst hi
    rw [List.drop_zero] at hp
    simp only [rfindFrom, hp, if_pos]
  | succ top ih =>
    intro h0 hp hmax
    by_cases he : i0 = top + 1
    · subst he
      simp only [rfindFrom, hp, if_pos]
    · have hle : i0 ≤ top := by omega
      have hfalse : old.isPrefixOf (s.drop (top + 1)) = false :=
        hmax (top + 1) (by omega) (by omega)
      simp only [rfindFrom, hfalse]
      simp only [Bool.false_eq_true, if_false]
      exact ih hle hp (fun j hj1 hj2 => hmax j hj1 (by omega))

theorem rreplace_of_suffix (t old nw : Str) (hold : old ≠ []) :
    rreplace (t ++ old) old nw = some (t ++ nw) := by
  unfold rreplace
  rw [if_neg hold]
  have hol : 1 ≤ old.length := by
    cases old with
    | nil => exact absurd rfl hold
    | cons a l => simp
  have hfind : rfindFrom (t ++ old) old (t ++ old).length = some t.length := by
    apply rfindFrom_spec
    · simp [List.length_append]
    · rw [List.drop_left]
      simp
    · intro j hj1 hj2
      cases hx : old.isPrefixOf ((t ++ old).drop j) with
      | false => rfl
      | true =>
        exfalso
        have hpre := List.isPrefixOf_iff_prefix.mp hx
        have hlen := hpre.length_le
        rw [List.length_drop, List.length_append] at hlen
        rw [List.length_append] at hj2
        omega
  rw [hfind]
  simp only []
  have h2 : (t ++ old).drop (t.length + old.length) = [] := by
    rw [← List.length_append, List.drop_length]
  rw [List.take_left, h2, List.append_nil]

theorem mem_appendIfNew {l : List Str} {y x : Str} :
    x ∈ appendIfNew l y ↔ x ∈ l ∨ x = y := by
  unfold appendIfNew
  by_cases h : y ∈ l
  · rw [if_pos h]
    constructor
    · exact Or.inl
    · rintro (hx | hx)
      · exact hx
      · exact hx ▸ h
  · rw [if_neg h]
    simp

theorem deconjDicts_some (stem infl : Str) (hinfl : infl ≠ []) :
    ∀ (pfxOpt : Option Str) (dicts : List Str) (acc : List Str), ∃ res,
      deconjDicts (stem ++ infl) infl pfxOpt dicts acc = some res ∧
      ∀ x, x ∈ res ↔ x ∈ acc ∨ ∃ df ∈ dicts,
        (x = stem ++ df ∨ ∃ p, pfxOpt = some p ∧
          p.isPrefixOf (stem ++ df) = true ∧ x = (stem ++ df).drop p.length) := by
  intro pfxOpt dicts
  induction dicts with
  | nil =>
    intro acc
    exact ⟨acc, rfl, by simp⟩
  | cons df rest ih =>
    intro acc
    have hrr : rreplace (stem ++ infl) infl df = some (stem ++ df) :=
      rreplace_of_suffix stem infl df hinfl
    cases pfxOpt with
    | none =>
      obtain ⟨res, hres, hchar⟩ := ih (appendIfNew acc (stem ++ df))
      refine ⟨res, ?_, ?_⟩
      · simp only [deconjDicts, hrr]
        exact hres
      · intro x
        rw [hchar x, mem_appendIfNew]
        simp only [List.exists_mem_cons_iff]
        constructor
        · rintro ((h | h) | h)
          · exact Or.inl h
          · exact Or.inr (Or.inl (Or.inl h))
          · obtain ⟨df2, hdf2, hc⟩ := h
            exact Or.inr (Or.inr ⟨df2, hdf2, hc⟩)
        · rintro (h | (h | ⟨p, hp, _⟩) | ⟨df2, hdf2, hc⟩)
          · exact Or.inl (Or.inl h)
          · exact Or.inl (Or.inr h)
          · cases hp
          · exact Or.inr ⟨df2, hdf2, hc⟩
    | some p =>
      by_cases hpre : p.isPrefixOf (stem ++ df) = true
      · obtain ⟨res, hres, hchar⟩ :=
          ih (appendIfNew (appendIfNew acc ((stem ++ df).drop p.length)) (stem ++ df))
        refine ⟨res, ?_, ?_⟩
        · simp only [deconjDicts, hrr, if_pos hpre]
          exact hres
        · intro x
          rw [hchar x, mem_appendIfNew, mem_appendIfNew]
          simp only [List.exists_mem_cons_iff, Option.some.injEq]
          constructor
          · rintro (((h | h) | h) | h)
            · exact Or.inl h
            · exact Or.inr (Or.inl (Or.inr ⟨p, rfl, hpre, h⟩))
            · exact Or.inr (Or.inl (Or.inl h))
            · obtain ⟨df2, hdf2, hc⟩ := h
              exact Or.inr (Or.inr ⟨df2, hdf2, hc⟩)
          · rintro (h | (h | ⟨q, hq, hq2, hq3⟩) | ⟨df2, hdf2, hc⟩)
            · exact Or.inl (Or.inl (Or.inl h))
            · exact Or.inl (Or.inr h)
            · cases hq
              exact Or.inl (Or.inl (Or.inr hq3))
            · exact Or.inr ⟨df2, hdf2, hc⟩
      · obtain ⟨res, hres, hchar⟩ := ih (appendIfNew acc (stem ++ df))
        refine ⟨res, ?_, ?_⟩
        · simp only [deconjDicts, hrr, if_neg hpre]
          exact hres
        · intro x
          rw [hchar x, mem_appendIfNew]
          simp only [List.exists_mem_cons_iff, Option.some.injEq]
          constructor
          · rintro ((h | h) | h)
            · exact Or.inl h
            · exact Or.inr (Or.inl (Or.inl h))
            · obtain ⟨df2, hdf2, hc⟩ := h
              exact Or.inr (Or.inr ⟨df2, hdf2, hc⟩)
          · rintro (h | (h | ⟨q, hq, hq2, hq3⟩) | ⟨df2, hdf2, hc⟩)
            · exact Or.inl (Or.inl h)
            · exact Or.inl (Or.inr h)
            · cases hq
              exact absurd hq2 hpre
            · exact Or.inr ⟨df2, hdf2, hc⟩

/-- The candidates the specification describes for one term and one rule
set: the rightmost occurrence of a matching inflected suffix (necessarily
the terminal one) is replaced by each dictionary form, and, when the rule
has a prefix the candidate starts with, the prefix-stripped candidate is
also produced. -/
def deconjCandidate (rules : List ConjRule) (t x : Str) : Prop :=
  ∃ r ∈ rules, r.inflected.isSuffixOf t = true ∧
    ∃ df ∈ r.dict,
      (x = t.take (t.length - r.inflected.length) ++ df ∨
       ∃ p, r.pfx = some p ∧
         p.isPrefixOf (t.take (t.length - r.inflected.length) ++ df) = true ∧
         x = (t.take (t.length - r.inflected.length) ++ df).drop p.length)

theorem deconjRules_some (t : Str) :
    ∀ (rules : List ConjRule), (∀ r ∈ rules, r.inflected ≠ []) →
    ∀ acc, ∃ res, deconjRules t rules acc = some res ∧
      ∀ x, x ∈ res ↔ x ∈ acc ∨ deconjCandidate rules t x := by
  intro rules
  induction rules with
  | nil =>
    intro _ acc
    refine ⟨acc, rfl, ?_⟩
    intro x
    simp [deconjCandidate]
  | cons r rest ih =>
    intro hwf acc
    have hwfr : r.inflected ≠ [] := hwf r (List.mem_cons_self _ _)
    have hwfrest : ∀ q ∈ rest, q.inflected ≠ [] :=
      fun q hq => hwf q (List.mem_cons_of_mem _ hq)
    by_cases hs : r.inflected.isSuffixOf t = true
    · obtain ⟨u, hu⟩ := List.isSuffixOf_iff_suffix.mp hs
      have hstem : t.take (t.length - r.inflected.length) = u := by
        rw [← hu, List.length_append, Nat.add_sub_cancel, List.take_left]
      obtain ⟨res1, hres1, hchar1⟩ :=
        deconjDicts_some u r.inflected hwfr r.pfx r.dict acc
      have hres1t : deconjDicts t r.inflected r.pfx r.dict acc = some res1 := by
        rw [← hu]
        exact hres1
      obtain ⟨res, hres, hchar⟩ := ih hwfrest res1
      refine ⟨res, ?_, ?_⟩
      · simp only [deconjRules, if_pos hs, hres1t]
        exact hres
      · intro x
        rw [hchar x, hchar1 x]
        simp only [deconjCandidate, List.exists_mem_cons_iff, hstem]
        constructor
        · rintro ((h | h) | h)
          · exact Or.inl h
          · exact Or.inr (Or.inl ⟨hs, h⟩)
          · exact Or.inr (Or.inr h)
        · rintro (h | ⟨_, h⟩ | h)
          · exact Or.inl (Or.inl h)
          · exact Or.inl (Or.inr h)
          · exact Or.inr h
    · obtain ⟨res, hres, hchar⟩ := ih hwfrest acc
      refine ⟨res, ?_, ?_⟩
      · simp only [deconjRules, if_neg hs]
        exact hres
      · intro x
        rw [hchar x]
        simp only [deconjCandidate, List.exists_mem_cons_iff]
        constructor
        · rintro (h | h)
          · exact Or.inl h
          · exact Or.inr (Or.inr h)
        · rintro (h | ⟨hbad, _⟩ | h)
          · exact Or.inl h
          · exact absurd hbad hs
          · exact Or.inr h

theorem deconjTerms_some (rules : List ConjRule)
    (hwf : ∀ r ∈ rules, r.inflected ≠ []) :
    ∀ (ts : List Str) (acc : List Str), ∃ res,
      deconjTerms rules ts acc = some res ∧
      ∀ x, x ∈ res ↔ x ∈ acc ∨ ∃ t ∈ ts, deconjCandidate rules t x := by
  intro ts
  induction ts with
  | nil =>
    intro acc
    refine ⟨acc, rfl, ?_⟩
    intro x
    simp
  | cons t ts ih =>
    intro acc
    obtain ⟨res1, hres1, hchar1⟩ := deconjRules_some t rules hwf acc
    obtain ⟨res, hres, hchar⟩ := ih res1
    refine ⟨res, ?_, ?_⟩
    · simp only [deconjTerms, hres1]
      exact hres
    · intro x
      rw [hchar x, hchar1 x]
      simp only [List.exists_mem_cons_iff]
      constructor
      · rintro ((h | h) | h)
        · exact Or.inl h
        · exact Or.inr (Or.inl h)
        · exact Or.inr (Or.inr h)
      · rintro (h | h | h)
        · exact Or.inl (Or.inl h)
        · exact Or.inl (Or.inr h)
        · exact Or.inr h

/-- C7 counterexample: on a rule with an empty inflected suffix (which every
term ends with), `_rreplace` calls `str.rsplit` with an empty separator,
which raises `ValueError` — so `_deconjugate` does not return a set
containing the original terms at all. -/
theorem deconjugate_empty_suffix_cex :
    deconjugate ["ab".data] [⟨[], ["x".data], none⟩] = none := by decide

/-- C7 amended: for every term list and every rule list whose rules all
have a **non-empty** inflected suffix, deinflection expansion succeeds and
returns a set containing exactly: every original term, plus, for every term
and every rule whose inflected suffix is a suffix of that term, every
candidate formed by replacing the rightmost (terminal) occurrence of that
suffix with each of the rule's dictionary forms — and, when the rule has a
prefix the candidate starts with, the candidate with that prefix
stripped — with all candidates of length ≤ 1 discarded. -/
theorem deconjugate_characterization (terms : List Str) (rules : List ConjRule)
    (hwf : ∀ r ∈ rules, r.inflected ≠ []) :
    (∃ res, deconjugate terms rules = some res) ∧
    (∀ res, deconjugate terms rules = some res →
      ∀ x, x ∈ res ↔
        (x ∈ terms ∨ (1 < x.length ∧ ∃ t ∈ terms, deconjCandidate rules t x))) := by
  obtain ⟨ds, hds, hchar⟩ := deconjTerms_some rules hwf terms []
  have hdef : deconjugate terms rules =
      some ((terms ++ ds.filter (fun d => 1 < d.length)).dedup) := by
    unfold deconjugate
    rw [hds]
  constructor
  · exact ⟨_, hdef⟩
  · intro res hres x
    rw [hdef] at hres
    injection hres with hres
    subst hres
    rw [List.mem_dedup, List.mem_append, List.mem_filter]
    constructor
    · rintro (h | ⟨hds2, hlen⟩)
      · exact Or.inl h
      · have hx := (hchar x).mp hds2
        rcases hx with hx | hx
        · simp at hx
        · exact Or.inr ⟨by simpa using hlen, hx⟩
    · rintro (h | ⟨hlen, t, ht, hc⟩)
      · exact Or.inl h
      · exact Or.inr ⟨(hchar x).mpr (Or.inr ⟨t, ht, hc⟩), by simpa using hlen⟩

/-- Witness for C7: the rule `{inflected: "ます", dict: ["る"]}` applied to
`["食べます"]` yields a set containing `"食べる"` (and the original). -/
theorem deconjugate_characterization_witness :
    "食べる".data ∈ ["食べます".data, "食べる".data] := by
  have h := (deconjugate_characterization ["食べます".data]
      [⟨"ます".data, ["る".data], none⟩] (by decide)).2
      ["食べます".data, "食べる".data] (by decide) "食べる".data
  apply h.mpr
  refine Or.inr ⟨by decide, "食べます".data, by decide, ?_⟩
  exact ⟨⟨"ます".data, ["る".data], none⟩, by decide, by decide, "る".data,
    by decide, Or.inl (by decide)⟩
